import Mathlib

/-!
A shallow embedding of the hint store (`chia/full_node/hint_store.py`).

The `hints` SQLite table is modelled as a list of rows in rowid
(insertion) order; a row is a `(coin_id, hint)` pair of byte strings.
Byte strings are lists of byte values; the Mathlib lexicographic order
on lists coincides with SQLite's blob comparison (memcmp with the
shorter prefix ordered first), which is what `ORDER BY coin_id` and
`coin_id > ?` use.  `ORDER BY` is modelled with `List.insertionSort`,
a stable sort, matching SQLite's index scans.  SQL queries issued with
one bound parameter per key are subject to the backend's maximum
bound-parameter count; where a claim depends on it the limit is an
explicit `varLimit` argument.
-/

namespace HintStoreModel

/-- Byte strings (SQLite blobs) as lists of byte values. -/
abbrev Bytes : Type := List Nat

/-- A row of the `hints` table: `(coin_id, hint)`. -/
abbrev HintRow : Type := Bytes × Bytes

/-- The `hints` table: rows in rowid (insertion) order. -/
abbrev HintDB : Type := List HintRow

/-- Fuel-driven chunking helper (structural recursion so that it reduces
in the kernel).  `to_batches_aux l.length l n` splits `l` into successive
chunks of at most `n` elements. -/
def to_batches_aux : Nat → List α → Nat → List (List α)
  | 0, _, _ => []
  | _ + 1, [], _ => []
  | fuel + 1, a :: l, n =>
    if n = 0 then [] else (a :: l).take n :: to_batches_aux fuel ((a :: l).drop n) n

/-- Modelled from the spec: `chia.util.batches.to_batches` is not under
`src/`.  Per §4.2 (BatchPlanner) it partitions the input key sequence into
successive chunks of size at most `n`, every key in exactly one chunk,
deterministically in input order; a non-positive `n` is a programming
error in the source (modelled as producing no chunks). -/
def to_batches (l : List α) (n : Nat) : List (List α) :=
  to_batches_aux l.length l n

/-- The fuel of `to_batches_aux` is irrelevant once it covers the length
of the list. -/
theorem to_batches_aux_fuel (n : Nat) :
    ∀ (fuel₁ fuel₂ : Nat) (l : List α), l.length ≤ fuel₁ → l.length ≤ fuel₂ →
      to_batches_aux fuel₁ l n = to_batches_aux fuel₂ l n := by
  intro fuel₁
  induction fuel₁ with
  | zero =>
    intro fuel₂ l h₁ _
    have hl : l = [] := List.eq_nil_of_length_eq_zero (Nat.le_zero.mp h₁)
    subst hl
    cases fuel₂ <;> rfl
  | succ f ih =>
    intro fuel₂ l h₁ h₂
    cases l with
    | nil => cases fuel₂ <;> rfl
    | cons a l =>
      cases fuel₂ with
      | zero => simp at h₂
      | succ f₂ =>
        simp only [to_batches_aux]
        by_cases hn : n = 0
        · simp [hn]
        · simp only [hn, if_false]
          have hd₁ : ((a :: l).drop n).length ≤ f := by
            simp only [List.length_drop]
            omega
          have hd₂ : ((a :: l).drop n).length ≤ f₂ := by
            simp only [List.length_drop]
            omega
          rw [ih f₂ _ hd₁ hd₂]

/-- Unfolding equation for `to_batches` on a nonempty list with a positive
chunk size. -/
theorem to_batches_eq_cons (l : List α) (n : Nat) (hl : l ≠ []) (hn : 0 < n) :
    to_batches l n = l.take n :: to_batches (l.drop n) n := by
  cases l with
  | nil => exact absurd rfl hl
  | cons a l =>
    have hn' : n ≠ 0 := Nat.pos_iff_ne_zero.mp hn
    simp only [to_batches, List.length_cons, to_batches_aux, hn', if_false]
    congr 1
    refine to_batches_aux_fuel n _ _ _ ?_ (Nat.le_refl _)
    simp only [List.length_drop, List.length_cons]
    omega

/-- Every key lands in exactly the chunks' concatenation: flattening the
batches gives back the input. -/
theorem to_batches_flatten (n : Nat) (hn : 0 < n) :
    ∀ (l : List α), (to_batches l n).flatten = l := by
  have aux : ∀ (fuel : Nat) (l : List α), l.length ≤ fuel →
      (to_batches l n).flatten = l := by
    intro fuel
    induction fuel with
    | zero =>
      intro l hl
      have : l = [] := List.eq_nil_of_length_eq_zero (Nat.le_zero.mp hl)
      subst this
      rfl
    | succ f ih =>
      intro l hl
      cases l with
      | nil => rfl
      | cons a l =>
        rw [to_batches_eq_cons _ n (by simp) hn]
        have : ((a :: l).drop n).length ≤ f := by
          simp only [List.length_drop, List.length_cons]
          simp only [List.length_cons] at hl
          omega
        simp only [List.flatten_cons, ih _ this, List.take_append_drop]
  intro l
  exact aux l.length l (Nat.le_refl _)

/-- Each chunk produced by `to_batches` has size at most `n`. -/
theorem to_batches_size (n : Nat) (l : List α) :
    ∀ b ∈ to_batches l n, b.length ≤ n := by
  have aux : ∀ (fuel : Nat) (l : List α), l.length ≤ fuel →
      ∀ b ∈ to_batches l n, b.length ≤ n := by
    intro fuel
    induction fuel with
    | zero =>
      intro l hl b hb
      have : l = [] := List.eq_nil_of_length_eq_zero (Nat.le_zero.mp hl)
      subst this
      simp [to_batches, to_batches_aux] at hb
    | succ f ih =>
      intro l hl b hb
      cases l with
      | nil => simp [to_batches, to_batches_aux] at hb
      | cons a l =>
        by_cases hn : 0 < n
        · rw [to_batches_eq_cons _ n (by simp) hn] at hb
          rcases List.mem_cons.mp hb with h | h
          · subst h
            simp
          · have : ((a :: l).drop n).length ≤ f := by
              simp only [List.length_drop, List.length_cons]
              simp only [List.length_cons] at hl
              omega
            exact ih _ this b h
        · have : n = 0 := by omega
          subst this
          simp [to_batches, to_batches_aux] at hb
  intro b hb
  exact aux l.length l (Nat.le_refl _) b hb

/-- `get_coin_ids`: `SELECT coin_id from hints WHERE hint=? LIMIT ?`
(rows in rowid order, silently truncated at `max_items`). -/
def get_coin_ids (store : HintDB) (hint : Bytes) (max_items : Nat) : List Bytes :=
  ((store.filter fun r => r.2 == hint).map fun r => r.1).take max_items

/-- Failure modes of issuing a query to the backend. -/
inductive QueryError : Type
  | tooManyVariables
deriving DecidableEq

/-- `get_coin_ids_by_hints`: a single
`SELECT coin_id FROM hints WHERE hint in (?,...,?)` with one bound
parameter per hint and no chunking and no `LIMIT`.  The backend rejects a
query whose bound-parameter count exceeds its limit (`varLimit`; modelled
from the spec's backend contract §6(d), the constant
`SQLITE_MAX_VARIABLE_NUMBER` not being under `src/`). -/
def get_coin_ids_by_hints (store : HintDB) (hints : List Bytes) (varLimit : Nat) :
    Except QueryError (List Bytes) :=
  if hints.length = 0 then Except.ok []
  else if varLimit < hints.length then Except.error QueryError.tooManyVariables
  else Except.ok ((store.filter fun r => hints.contains r.2).map fun r => r.1)

/-- The rows matching `WHERE hint IN hints`. -/
def matching_rows (store : HintDB) (hints : List Bytes) : HintDB :=
  store.filter fun r => hints.contains r.2

/-- The coin ids of the rows matching `WHERE hint IN hints` (with
row-level multiplicity: no `DISTINCT` in any of the queries). -/
def matching_coin_ids (store : HintDB) (hints : List Bytes) : List Bytes :=
  (matching_rows store hints).map fun r => r.1

/-- The result type of `get_coin_ids_by_hints_paginated`.  The source
annotates the function as returning a triple
`(coin_ids, next_last_id, total_coin_count)` but its empty-hints branch
executes `return []`, producing a bare list instead of a triple; the
`bare` constructor records that shape faithfully. -/
inductive PageResult : Type
  | bare (coin_ids : List Bytes)
  | page (coin_ids : List Bytes) (next_last_id : Option Bytes) (total_coin_count : Option Nat)
deriving DecidableEq

/-- The rows scanned by the paginated query:
`WHERE hint in (...) [AND coin_id > last_id] ORDER BY coin_id`. -/
def page_scan (store : HintDB) (hints : List Bytes) (last_id : Option Bytes) : List Bytes :=
  match last_id with
  | none => (matching_coin_ids store hints).insertionSort (· ≤ ·)
  | some l => ((matching_coin_ids store hints).filter fun c => decide (l < c)).insertionSort (· ≤ ·)

/-- `get_coin_ids_by_hints_paginated`: keyset pagination.  On empty hints
the source runs `return []` (the `bare` shape).  Otherwise, a
`COUNT(*)` of the matching rows is computed only when `last_id` is
absent; the page is the first `page_size` scanned coin ids; the returned
cursor is the page's last coin id, or the incoming `last_id` if the page
is empty. -/
def get_coin_ids_by_hints_paginated (store : HintDB) (hints : List Bytes)
    (page_size : Nat) (last_id : Option Bytes) : PageResult :=
  if hints.length = 0 then PageResult.bare []
  else
    let total : Option Nat :=
      match last_id with
      | none => some (matching_rows store hints).length
      | some _ => none
    let coin_ids := (page_scan store hints last_id).take page_size
    let next : Option Bytes :=
      match coin_ids.getLast? with
      | some x => some x
      | none => last_id
    PageResult.page coin_ids next total

/-- The rows of one chunk of `get_coin_ids_multi`:
`SELECT coin_id from hints INDEXED BY hint_index WHERE hint IN (...)`;
the forced index scan returns the matching rows ordered by hint
(stably, ties in rowid order). -/
def chunk_rows (store : HintDB) (batch : List Bytes) : HintDB :=
  (store.filter fun r => batch.contains r.2).insertionSort fun r s => r.2 ≤ s.2

/-- `get_coin_ids_multi`: chunks the hints with `to_batches` at the
backend parameter limit and applies `LIMIT max_items` to each chunk's
query separately, concatenating the per-chunk results. -/
def get_coin_ids_multi (store : HintDB) (hints : List Bytes)
    (varLimit max_items : Nat) : List Bytes :=
  ((to_batches hints varLimit).map fun batch =>
    ((chunk_rows store batch).map fun r => r.1).take max_items).flatten

/-- `get_hints`: chunked `SELECT hint from hints WHERE coin_id IN (...)`,
keeping only the rows whose hint is exactly 32 bytes long (the
`len(row[0]) == 32` guard in the comprehension). -/
def get_hints (store : HintDB) (coin_ids : List Bytes) (varLimit : Nat) : List Bytes :=
  ((to_batches coin_ids varLimit).map fun batch =>
    (((store.filter fun r => batch.contains r.1).map fun r => r.2).filter
      fun h => h.length == 32)).flatten

/-- One `INSERT OR IGNORE INTO hints VALUES(?, ?)`: appends the row
unless the `(coin_id, hint)` pair is already present (the table's
UNIQUE constraint), in which case the row is silently skipped. -/
def insert_or_ignore (store : HintDB) (row : HintRow) : HintDB :=
  if store.contains row then store else store ++ [row]

/-- `add_hints`: early-returns on an empty batch, otherwise
`executemany` of `INSERT OR IGNORE` row by row. -/
def add_hints (store : HintDB) (coin_hint_list : List HintRow) : HintDB :=
  if coin_hint_list.length = 0 then store
  else coin_hint_list.foldl insert_or_ignore store

/-- Scan order of the reverse-lookup query of `get_hints_for_coin_ids`:
`INDEXED BY sqlite_autoindex_hints_1` forces the UNIQUE
`(coin_id, hint)` index, so rows arrive ordered by `(coin_id, hint)`. -/
def row_le (r s : HintRow) : Prop :=
  r.1 < s.1 ∨ (r.1 = s.1 ∧ r.2 ≤ s.2)

instance : DecidableRel row_le := fun r s =>
  inferInstanceAs (Decidable (_ ∨ _))

/-- The rows returned by the reverse-lookup query of
`get_hints_for_coin_ids`, in `(coin_id, hint)` index order. -/
def reverse_rows (store : HintDB) (coin_ids : List Bytes) : HintDB :=
  (store.filter fun r => coin_ids.contains r.1).insertionSort row_le

/-- One Python dict assignment `d[k] = v` on a dict represented as an
association list in insertion order: overwrite in place if the key is
present, else append. -/
def dict_insert (d : List (Bytes × Bytes)) (k v : Bytes) : List (Bytes × Bytes) :=
  if d.any fun p => p.1 == k then d.map fun p => if p.1 == k then (k, v) else p
  else d ++ [(k, v)]

/-- Python dict lookup `d.get(k)` on the association-list representation. -/
def dict_get (d : List (Bytes × Bytes)) (k : Bytes) : Option Bytes :=
  (d.find? fun p => p.1 == k).map fun p => p.2

/-- `get_hints_for_coin_ids`: early-returns an empty collection on empty
input (the source returns a bare `[]` where a dict is declared),
otherwise builds a dict from the scanned rows, later rows overwriting
earlier ones on coin-id collision; no filtering of any kind is applied
to the hint values. -/
def get_hints_for_coin_ids (store : HintDB) (coin_ids : List Bytes) :
    List (Bytes × Bytes) :=
  if coin_ids.length = 0 then []
  else (reverse_rows store coin_ids).foldl (fun d r => dict_insert d r.1 r.2) []

/-- `count_hints`: `select count(*) from hints`. -/
def count_hints (store : HintDB) : Nat := store.length

/-- The list of coin ids carried by a `PageResult` (a caller unpacking
the declared triple reads this component first). -/
def page_ids : PageResult → List Bytes
  | PageResult.bare ids => ids
  | PageResult.page ids _ _ => ids

/-- The next-cursor component of a `PageResult` (absent in the bare shape). -/
def page_next : PageResult → Option Bytes
  | PageResult.bare _ => none
  | PageResult.page _ next _ => next

/-- The total-count component of a `PageResult` (absent in the bare shape). -/
def page_total : PageResult → Option Nat
  | PageResult.bare _ => none
  | PageResult.page _ _ t => t

/-- Whether a `PageResult` has the declared triple shape (`page`) as
opposed to the bare-list shape of the empty-hints branch, on which a
caller's triple unpacking fails. -/
def is_page : PageResult → Bool
  | PageResult.bare _ => false
  | PageResult.page _ _ _ => true

/-- The caller-side pagination protocol: call
`get_coin_ids_by_hints_paginated`, feed each call's next cursor into the
next call, and stop at the first page with fewer than `page_size`
entries.  Fuel-driven so that it reduces in the kernel. -/
def paginate (store : HintDB) (hints : List Bytes) (page_size : Nat) :
    Nat → Option Bytes → List (List Bytes)
  | 0, _ => []
  | fuel + 1, cursor =>
    let r := get_coin_ids_by_hints_paginated store hints page_size cursor
    if (page_ids r).length < page_size then [page_ids r]
    else page_ids r :: paginate store hints page_size fuel (page_next r)

/-- Run the pagination protocol from the start with enough fuel to reach
the final partial page (each full page consumes at least one of the at
most `store.length` matching rows). -/
def paginate_all (store : HintDB) (hints : List Bytes) (page_size : Nat) :
    List (List Bytes) :=
  paginate store hints page_size (store.length + 1) none

/-! Helper lemmas about the sorted scans. -/

/-- Sorting after a `WHERE` filter is the same as filtering the sorted
scan (both are sorted and permutations of the same list). -/
theorem insertionSort_filter (p : Bytes → Bool) (l : List Bytes) :
    (l.filter p).insertionSort (· ≤ ·) = ((l.insertionSort (· ≤ ·)).filter p) := by
  refine List.eq_of_perm_of_sorted (r := fun a b : Bytes => a ≤ b) ?_ ?_ ?_
  · exact (List.perm_insertionSort _ _).trans
      ((List.perm_insertionSort (· ≤ ·) l).filter p).symm
  · exact List.sorted_insertionSort _ _
  · exact (List.sorted_insertionSort _ l).filter p

/-- The scan with a cursor is the cursorless scan restricted to the coin
ids strictly above the cursor. -/
theorem page_scan_some (store : HintDB) (hints : List Bytes) (l : Bytes) :
    page_scan store hints (some l) =
      (page_scan store hints none).filter fun c => decide (l < c) := by
  simp only [page_scan]
  exact insertionSort_filter _ _

/-- Every scan is sorted (non-strictly) by coin id. -/
theorem page_scan_sorted (store : HintDB) (hints : List Bytes) (c : Option Bytes) :
    (page_scan store hints c).Sorted (· ≤ ·) := by
  cases c <;> exact List.sorted_insertionSort _ _

/-- Membership in the cursorless scan is membership among the matching
coin ids. -/
theorem mem_page_scan_none (store : HintDB) (hints : List Bytes) (x : Bytes) :
    x ∈ page_scan store hints none ↔ x ∈ matching_coin_ids store hints :=
  (List.perm_insertionSort _ _).mem_iff

/-- With no hints nothing matches and every scan is empty. -/
theorem page_scan_nil (store : HintDB) (c : Option Bytes) :
    page_scan store [] c = [] := by
  cases c <;> simp [page_scan, matching_coin_ids, matching_rows]

/-- In a sorted list every element is at most the last one. -/
theorem sorted_le_getLast :
    ∀ (s : List Bytes), s.Sorted (· ≤ ·) → ∀ (hne : s ≠ []),
      ∀ x ∈ s, x ≤ s.getLast hne := by
  intro s
  induction s with
  | nil => intro _ hne; exact absurd rfl hne
  | cons a t ih =>
    intro hs hne x hx
    cases t with
    | nil =>
      simp only [List.mem_singleton] at hx
      subst hx
      simp [List.getLast]
    | cons b u =>
      rcases List.mem_cons.mp hx with h | h
      · subst h
        rw [List.getLast_cons (by simp)]
        exact (List.sorted_cons.mp hs).1 _ (List.getLast_mem _)
      · rw [List.getLast_cons (by simp)]
        exact ih (List.sorted_cons.mp hs).2 (by simp) x h

/-- In a sorted list, every element is either in the first `n` entries or
strictly above their last entry (using that the order is antisymmetric). -/
theorem sorted_take_cover (s : List Bytes) (hs : s.Sorted (· ≤ ·)) (n : Nat)
    (hne : s.take n ≠ []) :
    ∀ x ∈ s, x ∈ s.take n ∨ (s.take n).getLast hne < x := by
  intro x hx
  set L := (s.take n).getLast hne with hL
  by_cases hmem : x ∈ s.take n
  · exact Or.inl hmem
  · right
    have hx' : x ∈ s.drop n := by
      have := (List.take_append_drop n s) ▸ hx
      rcases List.mem_append.mp this with h | h
      · exact absurd h hmem
      · exact h
    have hsplit := List.pairwise_append.mp ((List.take_append_drop n s).symm ▸ hs)
    have hLe : L ≤ x := hsplit.2.2 L (List.getLast_mem hne) x hx'
    rcases lt_or_eq_of_le hLe with h | h
    · exact h
    · exact absurd (h ▸ List.getLast_mem hne) hmem

/-- The page of a non-empty-hints paginated call is the first `page_size`
entries of the scan. -/
theorem paginated_ids (store : HintDB) (hints : List Bytes) (n : Nat)
    (c : Option Bytes) (hne : hints ≠ []) :
    page_ids (get_coin_ids_by_hints_paginated store hints n c) =
      (page_scan store hints c).take n := by
  have : hints.length ≠ 0 := fun h => hne (List.length_eq_zero.mp h)
  simp [get_coin_ids_by_hints_paginated, this, page_ids]

/-- The next cursor of a non-empty-hints paginated call: the last coin id
of the page, or the incoming cursor when the page is empty. -/
theorem paginated_next (store : HintDB) (hints : List Bytes) (n : Nat)
    (c : Option Bytes) (hne : hints ≠ []) :
    page_next (get_coin_ids_by_hints_paginated store hints n c) =
      match ((page_scan store hints c).take n).getLast? with
      | some x => some x
      | none => c := by
  have : hints.length ≠ 0 := fun h => hne (List.length_eq_zero.mp h)
  simp [get_coin_ids_by_hints_paginated, this, page_next]

/-- The total count of a cursorless, non-empty-hints paginated call is
the number of matching rows. -/
theorem paginated_total_first (store : HintDB) (hints : List Bytes) (n : Nat)
    (hne : hints ≠ []) :
    page_total (get_coin_ids_by_hints_paginated store hints n none) =
      some (matching_rows store hints).length := by
  have : hints.length ≠ 0 := fun h => hne (List.length_eq_zero.mp h)
  simp [get_coin_ids_by_hints_paginated, this, page_total]

/-- The total count is absent on every paginated call with a cursor. -/
theorem paginated_total_rest (store : HintDB) (hints : List Bytes) (n : Nat)
    (c : Bytes) :
    page_total (get_coin_ids_by_hints_paginated store hints n (some c)) = none := by
  by_cases h : hints.length = 0 <;>
    simp [get_coin_ids_by_hints_paginated, h, page_total]

/-- Master invariant of the pagination protocol: with enough fuel the
collected pages cover exactly the remaining scan, their concatenation is
sorted (non-strictly) by coin id, and coin ids in distinct pages are
strictly increasing page over page (hence no coin id recurs across
pages). -/
theorem paginate_spec (store : HintDB) (hints : List Bytes) (n : Nat) (hn : 0 < n) :
    ∀ (fuel : Nat) (c : Option Bytes), (page_scan store hints c).length < fuel →
      (∀ x, x ∈ (paginate store hints n fuel c).flatten ↔ x ∈ page_scan store hints c) ∧
      (paginate store hints n fuel c).flatten.Sorted (· ≤ ·) ∧
      (paginate store hints n fuel c).Pairwise (fun p q => ∀ x ∈ p, ∀ y ∈ q, x < y) := by
  intro fuel
  induction fuel with
  | zero => intro c h; exact absurd h (Nat.not_lt_zero _)
  | succ f ih =>
    intro c hrem
    by_cases hh : hints = []
    · subst hh
      have hbare : get_coin_ids_by_hints_paginated store [] n c = PageResult.bare [] := by
        simp [get_coin_ids_by_hints_paginated]
      have hunf : paginate store [] n (f + 1) c = [[]] := by
        simp only [paginate, hbare, page_ids]
        rw [if_pos (by simpa using hn)]
      rw [hunf, page_scan_nil]
      refine ⟨by simp, by simp, by simp⟩
    · have hids := paginated_ids store hints n c hh
      by_cases hpart : ((page_scan store hints c).take n).length < n
      · have hlen : (page_scan store hints c).length ≤ n := by
          have := List.length_take n (page_scan store hints c)
          omega
        have hscan : (page_scan store hints c).take n = page_scan store hints c :=
          List.take_of_length_le hlen
        have hunf : paginate store hints n (f + 1) c = [page_scan store hints c] := by
          simp only [paginate]
          rw [hids, if_pos hpart, hscan]
        rw [hunf]
        exact ⟨by simp, by simpa using page_scan_sorted store hints c, by simp⟩
      · have hfull : ((page_scan store hints c).take n).length = n := by
          have := List.length_take n (page_scan store hints c)
          omega
        have hne2 : (page_scan store hints c).take n ≠ [] :=
          List.ne_nil_of_length_pos (by omega)
        have idsSorted : ((page_scan store hints c).take n).Sorted (· ≤ ·) :=
          (page_scan_sorted store hints c).sublist (List.take_sublist n _)
        set L := ((page_scan store hints c).take n).getLast hne2 with hLdef
        have hnext : page_next (get_coin_ids_by_hints_paginated store hints n c) = some L := by
          rw [paginated_next store hints n c hh, List.getLast?_eq_getLast _ hne2]
        have hLmem : L ∈ page_scan store hints c :=
          (List.take_sublist n _).subset (List.getLast_mem hne2)
        have hfilter : page_scan store hints (some L) =
            (page_scan store hints c).filter fun x => decide (L < x) := by
          cases c with
          | none => exact page_scan_some store hints L
          | some m =>
            have hmL : m < L := by
              have h0 := hLmem
              rw [page_scan_some store hints m] at h0
              simpa using (List.mem_filter.mp h0).2
            rw [page_scan_some store hints L, page_scan_some store hints m,
              List.filter_filter]
            refine (List.filter_congr ?_).symm
            intro x _
            by_cases hLx : L < x
            · simp [hLx, hmL.trans hLx]
            · simp [hLx]
        have hdec : (page_scan store hints (some L)).length <
            (page_scan store hints c).length := by
          rw [hfilter]
          exact List.length_filter_lt_length_iff_exists.mpr ⟨L, hLmem, by simp⟩
        obtain ⟨ihm, ihs, ihp⟩ := ih (some L) (by omega)
        have hunf : paginate store hints n (f + 1) c =
            (page_scan store hints c).take n :: paginate store hints n f (some L) := by
          simp only [paginate]
          rw [hids, hnext, if_neg (by omega)]
        rw [hunf]
        refine ⟨?_, ?_, ?_⟩
        · intro x
          simp only [List.flatten_cons, List.mem_append]
          constructor
          · rintro (h | h)
            · exact (List.take_sublist n _).subset h
            · have h1 := (ihm x).mp h
              rw [hfilter] at h1
              exact List.mem_of_mem_filter h1
          · intro hx
            rcases sorted_take_cover _ (page_scan_sorted store hints c) n hne2 x hx with h | h
            · exact Or.inl h
            · refine Or.inr ((ihm x).mpr ?_)
              rw [hfilter]
              exact List.mem_filter.mpr ⟨hx, by simpa using h⟩
        · rw [List.flatten_cons]
          refine List.pairwise_append.mpr ⟨idsSorted, ihs, ?_⟩
          intro a ha b hb
          have haL : a ≤ L := sorted_le_getLast _ idsSorted hne2 a ha
          have hbL : L < b := by
            have h1 := (ihm b).mp hb
            rw [hfilter] at h1
            simpa using (List.mem_filter.mp h1).2
          exact le_of_lt (lt_of_le_of_lt haL hbL)
        · refine List.pairwise_cons.mpr ⟨?_, ihp⟩
          intro q hq x hx y hy
          have hyL : L < y := by
            have h1 := (ihm y).mp (List.mem_flatten.mpr ⟨q, hq, hy⟩)
            rw [hfilter] at h1
            simpa using (List.mem_filter.mp h1).2
          exact lt_of_le_of_lt (sorted_le_getLast _ idsSorted hne2 x hx) hyL

/-- With a cap of at least the whole table, the chunked multi-hint lookup
returns exactly the coin ids of the rows whose hint is in the input set
(with multiplicity, and chunk by chunk). -/
theorem mem_get_coin_ids_multi (store : HintDB) (hints : List Bytes) (vl cap : Nat)
    (hvl : 0 < vl) (hcap : store.length ≤ cap) (x : Bytes) :
    x ∈ get_coin_ids_multi store hints vl cap ↔ x ∈ matching_coin_ids store hints := by
  unfold get_coin_ids_multi
  have htake : ∀ b : List Bytes,
      (((chunk_rows store b).map fun r => r.1).take cap) =
        ((chunk_rows store b).map fun r => r.1) := by
    intro b
    refine List.take_of_length_le ?_
    rw [List.length_map]
    calc (chunk_rows store b).length
        = (store.filter fun r => b.contains r.2).length :=
          (List.perm_insertionSort _ _).length_eq
      _ ≤ store.length := List.length_filter_le _ _
      _ ≤ cap := hcap
  constructor
  · intro hx
    rcases List.mem_flatten.mp hx with ⟨l, hl, hxl⟩
    rcases List.mem_map.mp hl with ⟨b, hb, rfl⟩
    rw [htake b] at hxl
    rcases List.mem_map.mp hxl with ⟨r, hr, rfl⟩
    have hr' : r ∈ store.filter fun r => b.contains r.2 :=
      (List.perm_insertionSort _ _).mem_iff.mp hr
    have hrs : r ∈ store := List.mem_of_mem_filter hr'
    have hrb : r.2 ∈ b := by
      have := (List.mem_filter.mp hr').2
      simpa using this
    have hrh : r.2 ∈ hints := by
      have : r.2 ∈ (to_batches hints vl).flatten := List.mem_flatten.mpr ⟨b, hb, hrb⟩
      rwa [to_batches_flatten vl hvl] at this
    exact List.mem_map.mpr ⟨r, List.mem_filter.mpr ⟨hrs, by simpa using hrh⟩, rfl⟩
  · intro hx
    rcases List.mem_map.mp hx with ⟨r, hr, rfl⟩
    have hrs : r ∈ store := List.mem_of_mem_filter hr
    have hrh : r.2 ∈ hints := by
      have := (List.mem_filter.mp hr).2
      simpa using this
    have : r.2 ∈ (to_batches hints vl).flatten := by
      rwa [to_batches_flatten vl hvl]
    rcases List.mem_flatten.mp this with ⟨b, hb, hrb⟩
    refine List.mem_flatten.mpr ⟨((chunk_rows store b).map fun r => r.1).take cap,
      List.mem_map.mpr ⟨b, hb, rfl⟩, ?_⟩
    rw [htake b]
    refine List.mem_map.mpr ⟨r, ?_, rfl⟩
    exact (List.perm_insertionSort _ _).mem_iff.mpr
      (List.mem_filter.mpr ⟨hrs, by simpa using hrb⟩)

/-- An uncapped single-hint lookup returns exactly the coin ids of the
rows carrying that hint. -/
theorem mem_get_coin_ids_full (store : HintDB) (h x : Bytes) :
    x ∈ get_coin_ids store h store.length ↔ ∃ r ∈ store, r.2 = h ∧ r.1 = x := by
  unfold get_coin_ids
  rw [List.take_of_length_le
    (le_trans (le_of_eq (List.length_map _ _)) (List.length_filter_le _ _))]
  constructor
  · intro hx
    rcases List.mem_map.mp hx with ⟨r, hr, rfl⟩
    exact ⟨r, List.mem_of_mem_filter hr, by simpa using (List.mem_filter.mp hr).2, rfl⟩
  · rintro ⟨r, hr, hh, rfl⟩
    exact List.mem_map.mpr ⟨r, List.mem_filter.mpr ⟨hr, by simpa using hh⟩, rfl⟩

/-! Helper lemmas for the Python-dict association list. -/

/-- After an overwrite pass for key `a`, looking for key `a` finds the
overwritten entry `(a, v)` (provided some entry with key `a` exists). -/
theorem find_map_overwrite (a v : Bytes) :
    ∀ d : List (Bytes × Bytes), d.any (fun p => p.1 == a) = true →
      (d.map fun p => if p.1 == a then (a, v) else p).find? (fun p => p.1 == a) =
        some (a, v) := by
  intro d
  induction d with
  | nil => intro h; simp at h
  | cons q t ih =>
    intro h
    by_cases hq : q.1 = a
    · have : (q.1 == a) = true := by simpa using hq
      simp only [List.map_cons, this, if_pos]
      exact List.find?_cons_of_pos _ (by simp)
    · have hfalse : (q.1 == a) = false := by simpa using hq
      simp only [List.map_cons, hfalse, Bool.false_eq_true, if_false]
      rw [List.find?_cons_of_neg _ (by simp [hq])]
      refine ih ?_
      have := List.any_eq_true.mp h
      rcases this with ⟨x, hx, hpx⟩
      rcases List.mem_cons.mp hx with rfl | hx'
      · exact absurd (by simpa using hpx) hq
      · exact List.any_eq_true.mpr ⟨x, hx', hpx⟩

/-- An overwrite pass for key `a` does not change lookups of another
key `k`. -/
theorem find_map_other (a v k : Bytes) (hak : a ≠ k) :
    ∀ d : List (Bytes × Bytes),
      (d.map fun p => if p.1 == a then (a, v) else p).find? (fun p => p.1 == k) =
        d.find? fun p => p.1 == k := by
  intro d
  induction d with
  | nil => rfl
  | cons q t ih =>
    by_cases hq : q.1 = a
    · have hqa : (q.1 == a) = true := by simpa using hq
      simp only [List.map_cons, hqa, if_pos]
      rw [List.find?_cons_of_neg _ (by simpa using hak),
        List.find?_cons_of_neg _ (by simp [hq, hak]), ih]
    · have hqa : (q.1 == a) = false := by simpa using hq
      simp only [List.map_cons, hqa, Bool.false_eq_true, if_false]
      by_cases hqk : q.1 = k
      · rw [List.find?_cons_of_pos _ (by simpa using hqk),
          List.find?_cons_of_pos _ (by simpa using hqk)]
      · rw [List.find?_cons_of_neg _ (by simpa using hqk),
          List.find?_cons_of_neg _ (by simpa using hqk), ih]

/-- Python-dict assignment semantics on lookups: after `d[a] = v`,
looking up `a` yields `v` and any other key is unchanged. -/
theorem dict_get_insert (d : List (Bytes × Bytes)) (a v k : Bytes) :
    dict_get (dict_insert d a v) k = if a = k then some v else dict_get d k := by
  unfold dict_insert dict_get
  by_cases hany : d.any (fun p => p.1 == a) = true
  · rw [if_pos hany]
    by_cases hak : a = k
    · subst hak
      rw [find_map_overwrite a v d hany]
      simp
    · rw [find_map_other a v k hak d]
      simp [hak]
  · rw [if_neg hany, List.find?_append]
    by_cases hak : a = k
    · subst hak
      have hnone : d.find? (fun p => p.1 == a) = none := by
        rw [List.find?_eq_none]
        intro x hx hpx
        exact hany (List.any_eq_true.mpr ⟨x, hx, hpx⟩)
      rw [hnone]
      simp
    · have : ((a, v).1 == k) = false := by simpa using hak
      simp [List.find?, this, hak, Option.or]
      cases d.find? fun p => p.1 == k <;> simp

/-- Looking up `k` in the dict built by folding `dict_insert` over a row
list yields the value of the last row with key `k` (or falls back to the
initial dict). -/
theorem dict_get_foldl (k : Bytes) :
    ∀ (rows : List (Bytes × Bytes)) (d : List (Bytes × Bytes)),
      dict_get (rows.foldl (fun d r => dict_insert d r.1 r.2) d) k =
        match rows.reverse.find? (fun r => r.1 == k) with
        | some r => some r.2
        | none => dict_get d k := by
  intro rows
  induction rows with
  | nil => intro d; rfl
  | cons r t ih =>
    intro d
    rw [List.foldl_cons, ih, List.reverse_cons, List.find?_append]
    cases hfind : t.reverse.find? (fun r => r.1 == k) with
    | some q => simp [Option.or]
    | none =>
      simp only [Option.or]
      rw [dict_get_insert]
      by_cases hrk : r.1 = k
      · have : (r.1 == k) = true := by simpa using hrk
        simp [List.find?, this, hrk]
      · have : (r.1 == k) = false := by simpa using hrk
        simp [List.find?, this, hrk]

/-! Helper lemmas for `add_hints`. -/

/-- `add_hints` is the row-by-row fold of `INSERT OR IGNORE`. -/
theorem add_hints_eq_foldl (store : HintDB) (l : List HintRow) :
    add_hints store l = l.foldl insert_or_ignore store := by
  by_cases h : l.length = 0
  · have : l = [] := List.eq_nil_of_length_eq_zero h
    subst this
    simp [add_hints]
  · simp [add_hints, h]

/-- Rows present in the table survive any further inserts. -/
theorem mem_foldl_insert (p : HintRow) :
    ∀ (l : List HintRow) (store : HintDB), p ∈ store →
      p ∈ l.foldl insert_or_ignore store := by
  intro l
  induction l with
  | nil => intro store h; exact h
  | cons a t ih =>
    intro store h
    refine ih _ ?_
    unfold insert_or_ignore
    by_cases hc : store.contains a
    · rwa [if_pos hc]
    · rw [if_neg hc]
      exact List.mem_append_left _ h

/-- Inserting a row makes it present. -/
theorem mem_insert_or_ignore_self (store : HintDB) (p : HintRow) :
    p ∈ insert_or_ignore store p := by
  unfold insert_or_ignore
  by_cases hc : store.contains p
  · rw [if_pos hc]
    simpa using hc
  · rw [if_neg hc]
    exact List.mem_append_right _ (List.mem_singleton.mpr rfl)

/-- `INSERT OR IGNORE` of an already-present row is a no-op. -/
theorem insert_or_ignore_skip (store : HintDB) (p : HintRow) (h : p ∈ store) :
    insert_or_ignore store p = store := by
  unfold insert_or_ignore
  rw [if_pos (by simpa using h)]

/-! The claims. -/

/-- C1 counterexample: with one coin id carrying two hints of the queried
set, the first page holds that coin id twice, so the concatenation of the
pages is not in strictly ascending byte-lexicographic coin-id order as
the claim states (the queries use no `DISTINCT`). -/
theorem c1_counterexample :
    (paginate_all [([1], [10]), ([1], [11])] [[10], [11]] 2).flatten = [[1], [1]] ∧
    decide (List.Sorted (fun a b : Bytes => a < b)
        (paginate_all [([1], [10]), ([1], [11])] [[10], [11]] 2).flatten) = false :=
  ⟨by decide, by decide⟩

/-- C1 (amended): for every set of hints and every page size and
parameter limit above zero, concatenating the pages of the pagination
protocol (each call's next cursor fed to the next call, until a page
shorter than the page size) yields exactly the same set of coin ids as
`get_coin_ids_multi` with an effectively unbounded cap, in non-decreasing
(not strictly ascending: a coin id carrying several matching hints
repeats within a single page) byte-lexicographic order, and no coin id
appears in more than one page. -/
theorem c1_pagination_completeness (store : HintDB) (hints : List Bytes)
    (n vl cap : Nat) (hn : 0 < n) (hvl : 0 < vl) (hcap : store.length ≤ cap) :
    (∀ x, x ∈ (paginate_all store hints n).flatten ↔
        x ∈ get_coin_ids_multi store hints vl cap) ∧
    (paginate_all store hints n).flatten.Sorted (· ≤ ·) ∧
    (paginate_all store hints n).Pairwise (fun p q => ∀ x ∈ p, x ∉ q) := by
  have hlen : (page_scan store hints none).length < store.length + 1 := by
    have h1 : (page_scan store hints none).length =
        (matching_coin_ids store hints).length :=
      (List.perm_insertionSort _ _).length_eq
    have h2 : (matching_coin_ids store hints).length ≤ store.length := by
      rw [matching_coin_ids, List.length_map]
      exact List.length_filter_le _ _
    omega
  obtain ⟨hm, hs, hp⟩ := paginate_spec store hints n hn (store.length + 1) none hlen
  refine ⟨?_, hs, ?_⟩
  · intro x
    rw [paginate_all, hm x, mem_page_scan_none,
      ← mem_get_coin_ids_multi store hints vl cap hvl hcap x]
  · refine hp.imp ?_
    intro p q h x hxp hxq
    exact absurd (h x hxp x hxq) (lt_irrefl x)

/-- Witness for the amended C1 at a concrete store. -/
theorem c1_pagination_completeness_witness :
    (0 < 1 ∧ 0 < 1 ∧ ([([1], [10]), ([2], [11])] : HintDB).length ≤ 2) ∧
    ((∀ x, x ∈ (paginate_all [([1], [10]), ([2], [11])] [[10], [11]] 1).flatten ↔
        x ∈ get_coin_ids_multi [([1], [10]), ([2], [11])] [[10], [11]] 1 2) ∧
      (paginate_all [([1], [10]), ([2], [11])] [[10], [11]] 1).flatten.Sorted (· ≤ ·) ∧
      (paginate_all [([1], [10]), ([2], [11])] [[10], [11]] 1).Pairwise
        (fun p q => ∀ x ∈ p, x ∉ q)) :=
  ⟨⟨by decide, by decide, by decide⟩,
    c1_pagination_completeness [([1], [10]), ([2], [11])] [[10], [11]] 1 1 2
      (by decide) (by decide) (by decide)⟩

/-- C2 counterexample: with 3 hints and a backend parameter limit of 2,
`get_coin_ids_by_hints` issues a single query with 3 bound parameters
that the backend rejects — it does not partition the hints into chunks;
the chunked lookup over the same input would have returned the union. -/
theorem c2_counterexample :
    get_coin_ids_by_hints [([1], [10]), ([2], [11]), ([3], [12])] [[10], [11], [12]] 2 =
      Except.error QueryError.tooManyVariables ∧
    get_coin_ids_multi [([1], [10]), ([2], [11]), ([3], [12])] [[10], [11], [12]] 2 50000 =
      [[1], [2], [3]] :=
  ⟨rfl, by decide⟩

/-- C2 (amended): `get_coin_ids_by_hints` performs no chunking: it
issues one query with one bound parameter per hint; when the hint count
is within the backend limit it returns every matching coin id with no
cap, and when the count exceeds the limit the query exceeds the
parameter limit and is rejected rather than partitioned. -/
theorem c2_no_chunking (store : HintDB) (hints : List Bytes) (vl : Nat) :
    (hints ≠ [] → hints.length ≤ vl →
      get_coin_ids_by_hints store hints vl =
        Except.ok (matching_coin_ids store hints)) ∧
    (vl < hints.length →
      get_coin_ids_by_hints store hints vl =
        Except.error QueryError.tooManyVariables) := by
  constructor
  · intro h1 h2
    have hz : ¬ hints.length = 0 := fun h => h1 (List.length_eq_zero.mp h)
    have hlt : ¬ vl < hints.length := Nat.not_lt.mpr h2
    simp [get_coin_ids_by_hints, hz, hlt, matching_coin_ids, matching_rows]
  · intro h
    have hz : ¬ hints.length = 0 := by omega
    simp [get_coin_ids_by_hints, hz, h]

/-- Witness for the amended C2 at concrete inputs. -/
theorem c2_no_chunking_witness :
    get_coin_ids_by_hints [([1], [10])] [[10]] 1 = Except.ok [[1]] ∧
    get_coin_ids_by_hints [([1], [10])] [[10], [11]] 1 =
      Except.error QueryError.tooManyVariables := by
  constructor
  · have hmc : matching_coin_ids [([1], [10])] [[10]] = [[1]] := by decide
    have h := (c2_no_chunking [([1], [10])] [[10]] 1).1 (by decide) (by decide)
    rw [hmc] at h
    exact h
  · exact (c2_no_chunking [([1], [10])] [[10], [11]] 1).2 (by decide)

/-- C5 counterexample: a coin id holding two hints of the same chunk
appears twice in the returned list, so the claim's "no duplicate
item_id in the returned list" fails (the set union is still exact). -/
theorem c5_counterexample :
    get_coin_ids_multi [([1], [10]), ([1], [11]), ([2], [12])] [[10], [11], [12]] 2 10 =
      [[1], [1], [2]] ∧
    decide ((get_coin_ids_multi [([1], [10]), ([1], [11]), ([2], [12])]
        [[10], [11], [12]] 2 10).Nodup) = false :=
  ⟨by decide, by decide⟩

/-- C5 (amended): for a hint set whose size exceeds the backend
parameter limit and a cap at least as large as every chunk's match
count, `get_coin_ids_multi` returns a list whose members are exactly
the union of the uncapped single-hint lookups of each hint — no
matching coin id is omitted — though a coin id matching several hints
may occur several times in the list. -/
theorem c5_union_completeness (store : HintDB) (hints : List Bytes) (vl cap : Nat)
    (hvl : 0 < vl) (hsize : vl < hints.length) (hcap : store.length ≤ cap) :
    ∀ x, x ∈ get_coin_ids_multi store hints vl cap ↔
      ∃ h ∈ hints, x ∈ get_coin_ids store h store.length := by
  intro x
  rw [mem_get_coin_ids_multi store hints vl cap hvl hcap x]
  constructor
  · intro hx
    rcases List.mem_map.mp hx with ⟨r, hr, rfl⟩
    refine ⟨r.2, by simpa using (List.mem_filter.mp hr).2, ?_⟩
    exact (mem_get_coin_ids_full store r.2 r.1).mpr ⟨r, List.mem_of_mem_filter hr, rfl, rfl⟩
  · rintro ⟨h, hh, hx⟩
    rcases (mem_get_coin_ids_full store h x).mp hx with ⟨r, hr, hr2, rfl⟩
    have hmem : r.2 ∈ hints := hr2 ▸ hh
    exact List.mem_map.mpr ⟨r, List.mem_filter.mpr ⟨hr, by simpa using hmem⟩, rfl⟩

/-- Witness for the amended C5 at a concrete store. -/
theorem c5_union_completeness_witness :
    (0 < 2 ∧ 2 < ([[10], [11], [12]] : List Bytes).length ∧
      ([([1], [10]), ([2], [11]), ([3], [12])] : HintDB).length ≤ 3) ∧
    (∀ x, x ∈ get_coin_ids_multi [([1], [10]), ([2], [11]), ([3], [12])]
        [[10], [11], [12]] 2 3 ↔
      ∃ h ∈ [[10], [11], [12]],
        x ∈ get_coin_ids [([1], [10]), ([2], [11]), ([3], [12])] h 3) :=
  ⟨⟨by decide, by decide, by decide⟩,
    c5_union_completeness [([1], [10]), ([2], [11]), ([3], [12])] [[10], [11], [12]] 2 3
      (by decide) (by decide) (by decide)⟩

/-- C3 counterexample: `get_hints_for_coin_ids` applies no length
filtering — a stored 10-byte hint appears as the value of its coin id in
the returned mapping, contradicting the claim that the mapping filters
like `get_hints`. -/
theorem c3_counterexample :
    dict_get (get_hints_for_coin_ids [(List.replicate 32 2, List.replicate 10 7)]
        [List.replicate 32 2]) (List.replicate 32 2) = some (List.replicate 10 7) ∧
    (List.replicate 10 7 : Bytes).length = 10 :=
  ⟨by decide, by decide⟩

/-- C3 (amended): `get_hints_for_coin_ids` applies no length filtering —
stored hints of any length appear as values — and looking up a coin id
in the returned mapping yields the hint of the last row for that coin id
in the query's scan order (later rows overwrite earlier ones on key
collision). -/
theorem c3_map_last_write_wins (store : HintDB) (coin_ids : List Bytes) (k : Bytes) :
    dict_get (get_hints_for_coin_ids store coin_ids) k =
      match (reverse_rows store coin_ids).reverse.find? (fun r => r.1 == k) with
      | some r => some r.2
      | none => none := by
  unfold get_hints_for_coin_ids
  by_cases h : coin_ids.length = 0
  · have hc : coin_ids = [] := List.eq_nil_of_length_eq_zero h
    subst hc
    rw [if_pos (show ([] : List Bytes).length = 0 from rfl)]
    have hrr : reverse_rows store [] = [] := by
      simp [reverse_rows]
    rw [hrr]
    rfl
  · rw [if_neg h, dict_get_foldl]
    cases hf : (reverse_rows store coin_ids).reverse.find? (fun r => r.1 == k) with
    | none => simp [dict_get]
    | some q => simp

/-- Bounding the length of a concatenation of lists each bounded by `m`. -/
theorem flatten_length_le (m : Nat) :
    ∀ L : List (List Bytes), (∀ b ∈ L, b.length ≤ m) →
      L.flatten.length ≤ L.length * m := by
  intro L
  induction L with
  | nil => intro _; simp
  | cons a t ih =>
    intro h
    simp only [List.flatten_cons, List.length_append, List.length_cons]
    have h1 := h a (List.mem_cons_self a t)
    have h2 := ih fun b hb => h b (List.mem_cons_of_mem _ hb)
    rw [Nat.succ_mul]
    omega

/-- C4: `get_coin_ids_multi` applies `max_items` as a per-chunk limit,
not a global one: each chunk's query yields at most `max_items` coin
ids, the total is bounded by `chunk_count * max_items` (so it can
exceed `max_items` by up to `(chunk_count - 1) * max_items`), and at a
concrete two-chunk store the result really does exceed `max_items`. -/
theorem c4_per_chunk_cap (store : HintDB) (hints : List Bytes) (vl cap : Nat) :
    (∀ b ∈ to_batches hints vl,
      (((chunk_rows store b).map fun r => r.1).take cap).length ≤ cap) ∧
    (get_coin_ids_multi store hints vl cap).length ≤
      (to_batches hints vl).length * cap ∧
    1 < (get_coin_ids_multi [([1], [10]), ([2], [11])] [[10], [11]] 1 1).length := by
  refine ⟨fun b _ => List.length_take_le cap _, ?_, by decide⟩
  unfold get_coin_ids_multi
  calc ((to_batches hints vl).map fun batch =>
        ((chunk_rows store batch).map fun r => r.1).take cap).flatten.length
      ≤ ((to_batches hints vl).map fun batch =>
        ((chunk_rows store batch).map fun r => r.1).take cap).length * cap := by
        refine flatten_length_le cap _ ?_
        intro b hb
        rcases List.mem_map.mp hb with ⟨a, _, rfl⟩
        exact List.length_take_le cap _
    _ = (to_batches hints vl).length * cap := by rw [List.length_map]

/-- Witness for C4 at a concrete store. -/
theorem c4_per_chunk_cap_witness :
    (∀ b ∈ to_batches [[10], [11]] 1,
      (((chunk_rows [([1], [10]), ([2], [11])] b).map fun r => r.1).take 1).length ≤ 1) ∧
    (get_coin_ids_multi [([1], [10]), ([2], [11])] [[10], [11]] 1 1).length ≤
      (to_batches [[10], [11]] 1).length * 1 ∧
    1 < (get_coin_ids_multi [([1], [10]), ([2], [11])] [[10], [11]] 1 1).length :=
  c4_per_chunk_cap [([1], [10]), ([2], [11])] [[10], [11]] 1 1

/-- C6: on an empty hints input the paginated lookup returns immediately
without issuing a query, but it returns a bare empty list instead of the
declared triple (empty page, absent cursor, absent total); a caller
unpacking the declared triple fails on this value (the code contradicts
its own declared return type). -/
theorem c6_empty_hints_bare (store : HintDB) (n : Nat) (c : Option Bytes) :
    get_coin_ids_by_hints_paginated store [] n c = PageResult.bare [] ∧
    is_page (get_coin_ids_by_hints_paginated store [] n c) = false :=
  ⟨by simp [get_coin_ids_by_hints_paginated],
    by simp [get_coin_ids_by_hints_paginated, is_page]⟩

/-- C7: every hint returned by `get_hints` has length exactly 32 —
stored hints of any other length are silently excluded — while
`count_hints` still counts their rows; in particular a single record
with a 10-byte hint yields an empty `get_hints` result and a count
of 1. -/
theorem c7_get_hints_filter (store : HintDB) (ids : List Bytes) (vl : Nat)
    (idX hX : Bytes) (hlen : hX.length ≠ 32) :
    (∀ h ∈ get_hints store ids vl, h.length = 32) ∧
    count_hints store = store.length ∧
    get_hints (add_hints [] [(idX, hX)]) [idX] 999 = [] ∧
    count_hints (add_hints [] [(idX, hX)]) = 1 := by
  have hstore : add_hints [] [(idX, hX)] = [(idX, hX)] := by
    simp [add_hints, insert_or_ignore]
  refine ⟨?_, rfl, ?_, by rw [hstore]; rfl⟩
  · intro h hh
    unfold get_hints at hh
    rcases List.mem_flatten.mp hh with ⟨l, hl, hhl⟩
    rcases List.mem_map.mp hl with ⟨b, _, rfl⟩
    have := (List.mem_filter.mp hhl).2
    simpa using this
  · have hb : to_batches [idX] 999 = [[idX]] := by
      rw [to_batches_eq_cons [idX] 999 (by simp) (by omega)]
      rw [List.take_of_length_le (by simp only [List.length_cons, List.length_nil]; omega),
        List.drop_eq_nil_of_le (by simp only [List.length_cons, List.length_nil]; omega)]
      rfl
    rw [hstore]
    unfold get_hints
    rw [hb]
    simp [hlen]

/-- Witness for C7 with a concrete 10-byte hint. -/
theorem c7_get_hints_filter_witness :
    (List.replicate 10 7 : Bytes).length = 10 ∧
    ((∀ h ∈ get_hints [] [] 999, h.length = 32) ∧
      count_hints [] = ([] : HintDB).length ∧
      get_hints (add_hints [] [(List.replicate 32 2, List.replicate 10 7)])
        [List.replicate 32 2] 999 = [] ∧
      count_hints (add_hints [] [(List.replicate 32 2, List.replicate 10 7)]) = 1) :=
  ⟨by decide,
    c7_get_hints_filter [] [] 999 (List.replicate 32 2) (List.replicate 10 7) (by decide)⟩

/-- C8: insert is idempotent on the stored record set: a batch row whose
pair is already stored is silently skipped (deleting it from the batch
changes nothing), inserting the same pair twice leaves `count_hints`
unchanged after the second insert, and an empty insert is a no-op. -/
theorem c8_insert_idempotent (store : HintDB) (p : HintRow) (l₁ l₂ : List HintRow)
    (hp : p ∈ store) :
    add_hints store (l₁ ++ p :: l₂) = add_hints store (l₁ ++ l₂) ∧
    count_hints (add_hints (add_hints store [p]) [p]) =
      count_hints (add_hints store [p]) ∧
    add_hints store [] = store := by
  refine ⟨?_, ?_, rfl⟩
  · rw [add_hints_eq_foldl, add_hints_eq_foldl, List.foldl_append, List.foldl_append,
      List.foldl_cons]
    rw [insert_or_ignore_skip _ p (mem_foldl_insert p l₁ store hp)]
  · have h1 : add_hints store [p] = insert_or_ignore store p := by
      rw [add_hints_eq_foldl]
      rfl
    have h2 : p ∈ add_hints store [p] := by
      rw [h1]
      exact mem_insert_or_ignore_self store p
    have h3 : add_hints (add_hints store [p]) [p] = add_hints store [p] := by
      rw [add_hints_eq_foldl (add_hints store [p])]
      exact insert_or_ignore_skip _ p h2
    rw [h3]

/-- Witness for C8 at a concrete store. -/
theorem c8_insert_idempotent_witness :
    (([1], [10]) ∈ ([([1], [10])] : HintDB)) ∧
    (add_hints [([1], [10])] ([] ++ ([1], [10]) :: []) =
        add_hints [([1], [10])] ([] ++ []) ∧
      count_hints (add_hints (add_hints [([1], [10])] [([1], [10])]) [([1], [10])]) =
        count_hints (add_hints [([1], [10])] [([1], [10])]) ∧
      add_hints [([1], [10])] [] = [([1], [10])]) :=
  ⟨by decide, c8_insert_idempotent [([1], [10])] ([1], [10]) [] [] (by decide)⟩

/-- C9: the paginated lookup returns a total count exactly when called
without a cursor: on the first page (no cursor, non-empty hints) the
total is present, and on every call with a cursor it is absent,
regardless of the page contents. -/
theorem c9_total_only_first_page (store : HintDB) (hints : List Bytes) (n : Nat)
    (c : Bytes) (hne : hints ≠ []) :
    (page_total (get_coin_ids_by_hints_paginated store hints n none)).isSome = true ∧
    page_total (get_coin_ids_by_hints_paginated store hints n (some c)) = none := by
  refine ⟨?_, paginated_total_rest store hints n c⟩
  rw [paginated_total_first store hints n hne]
  rfl

/-- Witness for C9 at a concrete store. -/
theorem c9_total_only_first_page_witness :
    (page_total (get_coin_ids_by_hints_paginated [([1], [10])] [[10]] 5 none)).isSome =
        true ∧
      page_total (get_coin_ids_by_hints_paginated [([1], [10])] [[10]] 5 (some [0])) =
        none :=
  c9_total_only_first_page [([1], [10])] [[10]] 5 [0] (by decide)

/-- C10: the first-page total equals the number of matching rows, not
the number of distinct coin ids; when some coin id occurs in at least
two matching rows the total strictly exceeds the number of distinct
coin ids the full pagination delivers. -/
theorem c10_total_counts_rows (store : HintDB) (hints : List Bytes) (n : Nat)
    (hn : 0 < n) (hd : ¬ (matching_coin_ids store hints).Nodup) :
    page_total (get_coin_ids_by_hints_paginated store hints n none) =
      some (matching_coin_ids store hints).length ∧
    (paginate_all store hints n).flatten.dedup.length <
      (matching_coin_ids store hints).length := by
  have hne : hints ≠ [] := by
    intro hh
    subst hh
    exact hd (by simp [matching_coin_ids, matching_rows])
  constructor
  · rw [paginated_total_first store hints n hne, matching_coin_ids, List.length_map]
  · have hlen : (page_scan store hints none).length < store.length + 1 := by
      have h1 : (page_scan store hints none).length =
          (matching_coin_ids store hints).length :=
        (List.perm_insertionSort _ _).length_eq
      have h2 : (matching_coin_ids store hints).length ≤ store.length := by
        rw [matching_coin_ids, List.length_map]
        exact List.length_filter_le _ _
      omega
    obtain ⟨hm, _, _⟩ := paginate_spec store hints n hn (store.length + 1) none hlen
    have hfin : (paginate_all store hints n).flatten.toFinset =
        (matching_coin_ids store hints).toFinset := by
      ext x
      simp only [List.mem_toFinset]
      rw [paginate_all, hm x, mem_page_scan_none]
    have hdD : (paginate_all store hints n).flatten.dedup.length =
        (matching_coin_ids store hints).dedup.length := by
      rw [← List.card_toFinset, ← List.card_toFinset, hfin]
    rw [hdD]
    have hnodup : ¬ (matching_coin_ids store hints).Nodup := hd
    have hsub := List.dedup_sublist (matching_coin_ids store hints)
    rcases Nat.lt_or_ge (matching_coin_ids store hints).dedup.length
        (matching_coin_ids store hints).length with h | h
    · exact h
    · exfalso
      have heq : (matching_coin_ids store hints).dedup.length =
          (matching_coin_ids store hints).length :=
        le_antisymm hsub.length_le h
      exact hnodup (List.dedup_eq_self.mp (hsub.eq_of_length heq))

/-- Witness for C10 at a concrete store where one coin id carries two
matching hints. -/
theorem c10_total_counts_rows_witness :
    page_total (get_coin_ids_by_hints_paginated [([1], [10]), ([1], [11])]
        [[10], [11]] 2 none) =
      some (matching_coin_ids [([1], [10]), ([1], [11])] [[10], [11]]).length ∧
    (paginate_all [([1], [10]), ([1], [11])] [[10], [11]] 2).flatten.dedup.length <
      (matching_coin_ids [([1], [10]), ([1], [11])] [[10], [11]]).length :=
  c10_total_counts_rows [([1], [10]), ([1], [11])] [[10], [11]] 2 (by decide)
    (by decide)

end HintStoreModel
